import Mathlib

/-!
Verification of the YAML formatter and model-pipeline helpers of the
Ansible AI Connect service. The Python module
`ansible_ai_connect/ai/api/formatter.py` is shallowly embedded below:
strings are `List Char`, the YAML object model is the inductive `YVal`,
Python dicts are insertion-ordered association lists, and the external
YAML parser/serializer is passed in as an explicit function parameter
wherever the source calls into the `yaml` library. Fallible Python code
is modelled with `Except Unit`.
-/

set_option maxHeartbeats 1000000

namespace AAC

/-- Python `str.isspace` for the character set relevant here: ASCII
whitespace including vertical tab and form feed. -/
def pyIsSpace (c : Char) : Bool :=
  c.isWhitespace || c = '\x0b' || c = '\x0c'

/-- A character that `unify_prompt_ending` trims: a colon or whitespace
(the loop tests `prompt[i] == ":" or prompt[i].isspace()`). -/
def colonOrSpace (c : Char) : Bool :=
  c = ':' || pyIsSpace c

/-- The backward scan of `unify_prompt_ending`
(`for i in range(len(prompt) - 1, 0, -1)`).  `unifyGo p i` is the loop
about to test index `i`; reaching `i = 0` means the loop ran out of
indices (index 0 is never tested) and `"\n"` is returned. -/
def unifyGo (p : List Char) : Nat → List Char
  | 0 => ['\n']
  | i + 1 =>
    if colonOrSpace (p.getD (i + 1) ' ') then unifyGo p i
    else p.take (i + 2) ++ ['\n']

/-- `formatter.unify_prompt_ending`: scan backward from the last index
down to index 1, skipping colons and whitespace; on the first other
character at index `i` return `prompt[0:i+1] + "\n"`, otherwise `"\n"`. -/
def unify_prompt_ending (p : List Char) : List Char :=
  unifyGo p (p.length - 1)

/-- The claim's reading of `unify_prompt_ending`: remove every trailing
colon-or-whitespace character of the prompt and append one newline
(returning exactly `"\n"` only when the whole prompt is trimmable). -/
def unifySpecClaim (p : List Char) : List Char :=
  (p.reverse.dropWhile colonOrSpace).reverse ++ ['\n']

/-- The amended reading: the backward scan never tests index 0, so
whenever at most one character survives the trimming the result is just
`"\n"`; otherwise the trimmed prefix plus a newline is returned. -/
def unifySpecAmended (p : List Char) : List Char :=
  if (p.reverse.dropWhile colonOrSpace).reverse.length ≤ 1 then ['\n']
  else (p.reverse.dropWhile colonOrSpace).reverse ++ ['\n']

/-- Python `str.strip()`: drop whitespace from both ends. -/
def pyStrip (s : List Char) : List Char :=
  ((s.dropWhile pyIsSpace).reverse.dropWhile pyIsSpace).reverse

/-- Python `str.split(sep)` for a one-character separator `sep`:
all occurrences split, empty segments kept. -/
def splitOnChar (sep : Char) : List Char → List (List Char)
  | [] => [[]]
  | c :: cs =>
    if c = sep then [] :: splitOnChar sep cs
    else
      match splitOnChar sep cs with
      | [] => [[c]]
      | s :: ss => (c :: s) :: ss

/-- `formatter.get_task_count_from_prompt`: `0` for a falsy (empty)
prompt, otherwise `len(prompt.strip().split("&"))`. -/
def get_task_count_from_prompt (prompt : List Char) : Nat :=
  if prompt = [] then 0
  else (splitOnChar '&' (pyStrip prompt)).length

/-- `formatter.is_multi_task_prompt`: a non-empty prompt whose
left-stripped form starts with `#`. (For the empty prompt the guard
`if prompt:` returns `False`, which coincides with testing the
left-stripped empty list.) -/
def is_multi_task_prompt (p : List Char) : Bool :=
  match p.dropWhile pyIsSpace with
  | '#' :: _ => true
  | _ => false

/-- One step (`fuel`-indexed) of Python `str.split()`: skip leading
whitespace, take the next maximal non-whitespace word, and continue
after it. Each step consumes at least one character, so fuel equal to
the length of the string makes the recursion exact. -/
def pyWordsGo : Nat → List Char → List (List Char)
  | 0, _ => []
  | fuel + 1, s =>
    match s.dropWhile pyIsSpace with
    | [] => []
    | c :: cs =>
      (c :: cs.takeWhile (fun x => ! pyIsSpace x)) ::
        pyWordsGo fuel (cs.dropWhile (fun x => ! pyIsSpace x))

/-- Python `str.split()` (no separator): whitespace-separated words,
empty strings never produced. -/
def pyWords (s : List Char) : List (List Char) :=
  pyWordsGo s.length s

/-- Python `" ".join(ws)`. -/
def joinSpace : List (List Char) → List Char
  | [] => []
  | [w] => w
  | w :: ws => w ++ ' ' :: joinSpace ws

/-- Python `str.partition(pat)` for the non-empty literal separator used
by `handle_spaces`: `(before, sep, after)` at the first occurrence, or
`(s, "", "")` when the separator does not occur. -/
def pyPartition (pat : List Char) : List Char → List Char × List Char × List Char
  | [] => ([], [], [])
  | c :: cs =>
    if pat.isPrefixOf (c :: cs) then ([], pat, (c :: cs).drop pat.length)
    else
      match pyPartition pat cs with
      | (b, sp, a) => (c :: b, sp, a)

/-- The literal `"- name: "` that `handle_spaces` partitions on. -/
def namePat : List Char := "- name: ".data

/-- `formatter.handle_spaces`: keep everything up to and including the
first `"- name: "` verbatim and re-join the whitespace-separated words
of the remainder with single spaces (`" ".join(after.split())`). The
`try/except` of the source cannot fire for total string operations. -/
def handle_spaces (prompt : List Char) : List Char :=
  (pyPartition namePat prompt).1 ++ (pyPartition namePat prompt).2.1
    ++ joinSpace (pyWords (pyPartition namePat prompt).2.2)

/-- Split a string at its LAST newline, if any: `some (left, right)`
with the newline removed. -/
def splitLastNl : List Char → Option (List Char × List Char)
  | [] => none
  | c :: cs =>
    match splitLastNl cs with
    | some (a, b) => some (c :: a, b)
    | none => if c = '\n' then some ([], cs) else none

/-- Python `s.rsplit("\n", 2)`: split at the last two newlines, giving
one, two or three segments. -/
def rsplit2 (s : List Char) : List (List Char) :=
  match splitLastNl s with
  | none => [s]
  | some (a, b) =>
    match splitLastNl a with
    | none => [a, b]
    | some (c, d) => [c, d, b]

/-- `formatter.preprocess`, with the external
`normalize_yaml(f"{context}\n{prompt}", ...)` call abstracted as the
function argument `normalize` (`none` models the `None` return for
empty input). Multi-task prompts keep the original prompt and take the
whole normalized text as context; single-task prompts split the
normalized text on its last two newlines and run `handle_spaces` on the
resulting prompt (also on the unsplit prompt when fewer than two
segments arise, as in the source, where `handle_spaces` sits after the
`if/elif/else`). -/
def preprocess (normalize : List Char → Option (List Char))
    (context prompt : List Char) : List Char × List Char :=
  match normalize (context ++ '\n' :: prompt) with
  | none => (context, prompt)
  | some formatted =>
    if is_multi_task_prompt prompt then (formatted, prompt)
    else
      let segs := rsplit2 formatted
      let cp : List Char × List Char :=
        if segs.length = 3 then (segs.getD 0 [] ++ ['\n'], segs.getD 1 [])
        else if segs.length = 2 then ([], segs.getD 0 [])
        else (context, prompt)
      (cp.1, handle_spaces cp.2)

/-- A character of the regex class `[a-z0-9_]`. -/
def isWordChar (c : Char) : Bool :=
  (97 ≤ c.toNat && c.toNat ≤ 122) || (48 ≤ c.toNat && c.toNat ≤ 57) || c.toNat = 95

/-- A character of the regex class `[a-z0-9_.]`. -/
def isModChar (c : Char) : Bool :=
  isWordChar c || c = '.'

/-- A match attempt of `([a-z0-9_.]+):` anchored at the start of `s`,
returning group 1 and the rest of the string after the match. Since `:`
is not in the character class, the greedy run cannot backtrack: the only
possible match takes the maximal run followed by a colon. -/
def moduleTryAt (s : List Char) : Option (List Char × List Char) :=
  match s.takeWhile isModChar, s.dropWhile isModChar with
  | [], _ => none
  | run, ':' :: rest => some (run, rest)
  | _, _ => none

/-- A match attempt of `(([a-z0-9_]+)\.([a-z0-9_]+)\.([a-z0-9_]+)):`
anchored at the start of `s`, returning group 1 (the dotted triple) and
the rest after the match. The word class excludes both `.` and `:`, so
each of the three runs is forced maximal and no backtracking arises. -/
def fqcnTryAt (s : List Char) : Option (List Char × List Char) :=
  match s.takeWhile isWordChar, s.dropWhile isWordChar with
  | [], _ => none
  | r1, '.' :: u1 =>
    match u1.takeWhile isWordChar, u1.dropWhile isWordChar with
    | [], _ => none
    | r2, '.' :: u2 =>
      match u2.takeWhile isWordChar, u2.dropWhile isWordChar with
      | [], _ => none
      | r3, ':' :: u3 => some (r1 ++ '.' :: r2 ++ '.' :: r3, u3)
      | _, _ => none
    | _, _ => none
  | _, _ => none

/-- Leftmost regex match: try the pattern at every start position, as
the `re` engine does (both patterns need at least two characters, so
the empty suffix never matches). -/
def reScan (tryAt : List Char → Option (List Char × List Char)) :
    List Char → Option (List Char × List Char)
  | [] => none
  | c :: cs =>
    match tryAt (c :: cs) with
    | some m => some m
    | none => reScan tryAt cs

/-- The `while item:` loop of `_parse_module_from_prediction` over
`re.finditer`: keep consuming matches while `predicate` holds of group
1, return the first group that fails it, `None` when the iterator is
exhausted. Every match consumes at least two characters, so fuel
`s.length + 1` makes the fuel-indexed recursion exact. -/
def reIterGo (tryAt : List Char → Option (List Char × List Char))
    (pred : List Char → Bool) : Nat → List Char → Option (List Char)
  | 0, _ => none
  | fuel + 1, s =>
    match reScan tryAt s with
    | none => none
    | some (g, rest) => if pred g then reIterGo tryAt pred fuel rest else some g

/-- `formatter._parse_module_from_prediction`. -/
def parse_module_from_prediction (tryAt : List Char → Option (List Char × List Char))
    (pred : List Char → Bool) (s : List Char) : Option (List Char) :=
  reIterGo tryAt pred (s.length + 1) s

/-- All `finditer` matches (group 1 values, non-overlapping, left to
right), fuel-indexed like `reIterGo`. -/
def reMatchesGo (tryAt : List Char → Option (List Char × List Char)) :
    Nat → List Char → List (List Char)
  | 0, _ => []
  | fuel + 1, s =>
    match reScan tryAt s with
    | none => []
    | some (g, rest) => g :: reMatchesGo tryAt fuel rest

/-- The list of all `finditer` group-1 values of a pattern in `s`. -/
def reMatches (tryAt : List Char → Option (List Char × List Char))
    (s : List Char) : List (List Char) :=
  reMatchesGo tryAt (s.length + 1) s

/-- `formatter._get_fqcn_from_prediction`: first match of the
three-segment pattern (the predicate is constantly false). -/
def _get_fqcn_from_prediction (s : List Char) : Option (List Char) :=
  parse_module_from_prediction fqcnTryAt (fun _ => false) s

/-- `formatter._get_module_from_prediction`: first match of the dotted
single-identifier pattern whose value is not an Ansible task keyword.
The process-wide keyword cache (computed by reflection on the external
`ansible.playbook.task.Task` class) is the parameter `kw`. -/
def _get_module_from_prediction (kw : List (List Char)) (s : List Char) :
    Option (List Char) :=
  parse_module_from_prediction moduleTryAt (fun v => kw.contains v) s

/-- `formatter.get_fqcn_or_module_from_prediction` (`none` input models
the Python `None` prediction). -/
def get_fqcn_or_module_from_prediction (kw : List (List Char)) :
    Option (List Char) → Option (List Char)
  | none => none
  | some s =>
    match _get_fqcn_from_prediction s with
    | none => _get_module_from_prediction kw s
    | some g => some g

/-! ### The YAML object model

Values returned by `yaml.safe_load` are modelled by `YVal`: `null`,
strings, lists, and insertion-ordered dictionaries with string keys
(the shapes the formatter manipulates). The parser itself stays
abstract: each function that calls `yaml.load` takes the parser as an
explicit argument, `Except Unit` modelling a raised parse error. -/

/-- The dict keys the formatter manipulates, named so proofs treat them
as atoms. -/
def nameKey : List Char := "name".data

def tasksKey : List Char := "tasks".data

def varsKey : List Char := "vars".data

def varsFilesKey : List Char := "vars_files".data

inductive YVal where
  | nullV : YVal
  | strV : List Char → YVal
  | listV : List YVal → YVal
  | mapV : List (List Char × YVal) → YVal

instance : Inhabited YVal := ⟨YVal.nullV⟩

/-- Python `dict` lookup on an insertion-ordered association list. -/
def pyLookup (m : List (List Char × YVal)) (k : List Char) : Option YVal :=
  match m with
  | [] => none
  | kv :: rest => if kv.1 = k then some kv.2 else pyLookup rest k

/-- Python truthiness of a YAML value. -/
def pyFalsy : YVal → Bool
  | .nullV => true
  | .strV s => s.isEmpty
  | .listV l => l.isEmpty
  | .mapV m => m.isEmpty

/-- Python `len`, raising `TypeError` on `None`. -/
def pyLen : YVal → Except Unit Nat
  | .nullV => .error ()
  | .strV s => .ok s.length
  | .listV l => .ok l.length
  | .mapV m => .ok m.length

/-- Python slice `x[k:]` as a list of values: lists slice to their
elements, strings to their one-character strings; slicing a dict or
`None` raises `TypeError`. -/
def pySliceFrom : YVal → Nat → Except Unit (List YVal)
  | .listV l, k => .ok (l.drop k)
  | .strV s, k => .ok ((s.drop k).map (fun c => .strV [c]))
  | _, _ => .error ()

/-- Python iteration `[x for x in v]`: elements of a list, characters
of a string, keys of a dict; iterating `None` raises `TypeError`. -/
def yvalElems : YVal → Except Unit (List YVal)
  | .nullV => .error ()
  | .strV s => .ok (s.map (fun c => .strV [c]))
  | .listV l => .ok l
  | .mapV m => .ok (m.map (fun kv => .strV kv.1))

/-- Python dict assignment `d[k] = v`: update in place when the key
exists (its position is kept), append at the end otherwise. -/
def pySet (m : List (List Char × YVal)) (k : List Char) (v : YVal) :
    List (List Char × YVal) :=
  if (pyLookup m k).isSome then m.map (fun kv => if kv.1 = k then (k, v) else kv)
  else m ++ [(k, v)]

/-- Python `d.pop(k)` / `del d[k]` (the remaining order is kept). -/
def pyRemove (m : List (List Char × YVal)) (k : List Char) :
    List (List Char × YVal) :=
  m.filter (fun kv => decide (¬ kv.1 = k))

/-- Python `d1 | d2`: keys of `d1` in order with values updated from
`d2`, then the keys of `d2` not in `d1`, in their order. -/
def pyUnion (d1 d2 : List (List Char × YVal)) : List (List Char × YVal) :=
  d1.map (fun kv =>
    match pyLookup d2 kv.1 with
    | some v => (kv.1, v)
    | none => kv)
  ++ d2.filter (fun kv => ! (pyLookup d1 kv.1).isSome)

/-- Python `x != k` for a string `k`: true unless `x` is the same
string (values of other types never equal a string). -/
def yStrEq : YVal → List Char → Bool
  | .strV s, k => decide (s = k)
  | _, _ => false

/-- A `for` loop collecting `Except` results (used where the source
iterates and any raised exception propagates). -/
def exMapM {α β : Type} (f : α → Except Unit β) : List α → Except Unit (List β)
  | [] => .ok []
  | x :: xs =>
    match f x with
    | .error e => .error e
    | .ok y =>
      match exMapM f xs with
      | .error e => .error e
      | .ok ys => .ok (y :: ys)

/-- `formatter.get_task_names_from_tasks`, the parser passed in. The
source raises `Exception("unexpected tasks yaml")` when the parsed
value is not a list, when its first element is not a dict with a
string-valued `name`, and (via `IndexError` while evaluating
`task_list[0]`) when the list is empty; the loop `task["name"]` raises
`KeyError`/`TypeError` for a later task without a `name` key. -/
def get_task_names_from_tasks (parse : List Char → Except Unit YVal)
    (tasks : List Char) : Except Unit (List YVal) :=
  match parse tasks with
  | .error e => .error e
  | .ok v =>
    match v with
    | .listV ts =>
      match ts with
      | [] => .error ()
      | t0 :: _ =>
        match t0 with
        | .mapV m =>
          match pyLookup m nameKey with
          | some (.strV _) =>
            exMapM (fun t =>
              match t with
              | .mapV mm =>
                match pyLookup mm nameKey with
                | some nv => .ok nv
                | none => .error ()
              | _ => .error ()) ts
          | _ => .error ()
        | _ => .error ()
    | _ => .error ()

/-- The claim's well-formedness condition on the parsed tasks value: a
non-empty list whose first element is a mapping with a string-valued
`name` key and in which every task carries a `name` key. -/
def wellFormedTasks : YVal → Bool
  | .listV (t0 :: ts) =>
    (match t0 with
     | .mapV m =>
       match pyLookup m nameKey with
       | some (.strV _) => true
       | _ => false
     | _ => false)
    && (t0 :: ts).all (fun t =>
        match t with
        | .mapV m => (pyLookup m nameKey).isSome
        | _ => false)
  | _ => false

/-- The `name` values of a list of tasks, in document order. -/
def taskNameValues (ts : List YVal) : List YVal :=
  ts.map (fun t =>
    match t with
    | .mapV m =>
      match pyLookup m nameKey with
      | some nv => nv
      | none => .nullV
    | _ => .nullV)

/-- Python `prompt.split("#", 1)[1]`: everything after the first `#`
(the callers guard on `is_multi_task_prompt`, so a `#` is present). -/
def afterChar (c : Char) : List Char → List Char
  | [] => []
  | x :: xs => if x = c then xs else afterChar c xs

/-- Python `s.split(pat)[-1]` for the non-self-overlapping literal
`"name:"`: the text after the last occurrence, the whole string when
the pattern does not occur. -/
def afterLastSubAux (pat : List Char) : List Char → Option (List Char)
  | [] => none
  | c :: cs =>
    match afterLastSubAux pat cs with
    | some r => some r
    | none =>
      if pat.isPrefixOf (c :: cs) then some ((c :: cs).drop pat.length) else none

def afterLastSub (pat s : List Char) : List Char :=
  (afterLastSubAux pat s).getD s

/-- The literal `"- name:"` that multi-task segments may start with. -/
def nameColon : List Char := "- name:".data

/-- `formatter.get_task_names_from_prompt`: for a multi-task prompt,
drop through the first `#`, strip, split on `&`, strip each segment and
remove a leading `"- name:"` (the source uses `replace("- name:", "", 1)`
guarded by `startswith("- name:")`, which under the guard removes
exactly the prefix); for a single-task prompt, the stripped text after
the last `"name:"`. -/
def get_task_names_from_prompt (prompt : List Char) : List (List Char) :=
  if is_multi_task_prompt prompt then
    let p1 := pyStrip (afterChar '#' prompt)
    let trimmed := (splitOnChar '&' p1).map pyStrip
    trimmed.map (fun t =>
      if nameColon.isPrefixOf t then pyStrip (t.drop nameColon.length) else t)
  else [pyStrip (afterLastSub ("name:".data) prompt)]

/-- One fuel-indexed step of Python `str.replace(pat, rep)` for a
non-empty `pat`: replace every non-overlapping occurrence left to
right. Each step consumes at least one character, so fuel equal to the
length of the subject makes the recursion exact. -/
def strReplaceGo (pat rep : List Char) : List Char → Nat → List Char
  | s, 0 => s
  | [], _ + 1 => []
  | c :: cs, fuel + 1 =>
    if pat.isPrefixOf (c :: cs) then
      rep ++ strReplaceGo pat rep ((c :: cs).drop pat.length) fuel
    else c :: strReplaceGo pat rep cs fuel

/-- Python `s.replace(pat, rep)`, including the empty-pattern case
(`"abc".replace("", "X") = "XaXbXcX"`), which `restore_original_task_names`
reaches when a generated task's name is the empty string. -/
def strReplace (s pat rep : List Char) : List Char :=
  if pat.isEmpty then rep ++ s.foldr (fun c acc => c :: rep ++ acc) []
  else strReplaceGo pat rep s s.length

/-- `formatter.get_task_list_from_yaml_data_obj`: for a non-empty list
whose first element is a dict, the first element's `tasks` value when it
is not `None` (the empty list for an absent key or a `None` value), or
the data itself when the result is falsy and no `tasks` key exists;
everything else yields the empty list. The returned `YVal` is whatever
the Python expression evaluates to — not necessarily a list. -/
def get_task_list_from_yaml_data_obj (data : YVal) : YVal :=
  match data with
  | .listV (d0 :: rest) =>
    match d0 with
    | .mapV m =>
      let tget : YVal :=
        match pyLookup m tasksKey with
        | none => .listV []
        | some v => v
      let task_list : YVal :=
        match tget with
        | .nullV => .listV []
        | v => v
      if pyFalsy task_list && (pyLookup m tasksKey).isNone then .listV (d0 :: rest)
      else task_list
    | _ => .listV []
  | _ => .listV []

/-- The literal `"- name:  "` (two spaces) used to rebuild task lines. -/
def nameLine : List Char := "- name:  ".data

/-- The `for i, task in enumerate(full_task_list[k:])` loop of
`restore_original_task_names`: `task.get("name", "")` must yield a
string (otherwise Python raises `AttributeError`/`TypeError`, which the
`except IndexError` clause does not catch); exhaustion of
`prompt_task_names[i]` raises `IndexError`, which is caught and breaks
the loop, keeping the substitutions already made. -/
def restoreLoop (names : List (List Char)) :
    List YVal → Nat → List Char → Except Unit (List Char)
  | [], _, out => .ok out
  | t :: ts, i, out =>
    match t with
    | .mapV m =>
      match (pyLookup m nameKey).getD (.strV []) with
      | .strV task_name =>
        match names.get? i with
        | none => .ok out
        | some nm =>
          restoreLoop names ts (i + 1)
            (strReplace out (nameLine ++ task_name)
              (strReplace (nameLine ++ task_name) task_name nm))
      | _ => .error ()
    | _ => .error ()

/-- `formatter.restore_original_task_names`, the YAML parser passed in.
Both `yaml.safe_load` calls sit in one `try`: any parse error returns
the original `output_yaml`. The context's task count `k` skips the
first `k` generated tasks. -/
def restore_original_task_names (parse : List Char → Except Unit YVal)
    (output_yaml prompt payload_context : List Char) : Except Unit (List Char) :=
  if ¬ output_yaml.isEmpty ∧ is_multi_task_prompt prompt = true then
    match parse payload_context, parse (payload_context ++ output_yaml) with
    | .ok pcd, .ok fd =>
      let prompt_task_names := get_task_names_from_prompt prompt
      let full_task_list := get_task_list_from_yaml_data_obj fd
      let payload_task_list := get_task_list_from_yaml_data_obj pcd
      match pyLen payload_task_list with
      | .error e => .error e
      | .ok k =>
        match pySliceFrom full_task_list k with
        | .error e => .error e
        | .ok ts => restoreLoop prompt_task_names ts 0 output_yaml
    | _, _ => .ok output_yaml
  else .ok output_yaml

/-- The amended description of the substitution pass: walk the generated
tasks beyond the context in order, paired with the prompt task names
(pairing stops at the shorter list, which is the `IndexError`-break),
and rewrite each `"- name:  " ++ generatedName` line. -/
def substFold (names : List (List Char)) (ts : List YVal) (out : List Char) :
    List Char :=
  (ts.zip names).foldl
    (fun o tn =>
      match tn.1 with
      | .mapV m =>
        match (pyLookup m nameKey).getD (.strV []) with
        | .strV task_name =>
          strReplace o (nameLine ++ task_name)
            (strReplace (nameLine ++ task_name) task_name tn.2)
        | _ => o
      | _ => o)
    out

/-- `formatter.normalize_yaml`, with the external `yaml` machinery
abstracted: `load` models `yaml.load(..., SafeLoader)` (`.error` a
raised parse error, `.ok none` the `None` document for empty input),
`dump` the deterministic `yaml.dump(..., AnsibleDumper, ...)`
serialization, and `expand` the in-place `expand_vars_files` mutation,
applied only when an additional context is present. -/
def normalize_yaml {Y C : Type} (load : List Char → Except Unit (Option Y))
    (dump : Y → List Char) (expand : Y → C → Y) (actx : Option C)
    (s : List Char) : Except Unit (Option (List Char)) :=
  match load s with
  | .error e => .error e
  | .ok none => .ok none
  | .ok (some d) =>
    .ok (some (dump (match actx with
      | none => d
      | some a => expand d a)))

/-- Python `list(xs)[-1]` as an option: the last element, if any. -/
def lastOf {α : Type} : List α → Option α
  | [] => none
  | [a] => some a
  | _ :: xs => lastOf xs

/-- The `playbookContext` part of an additional context:
`varInfiles` and `includeVars` are insertion-ordered dicts mapping a
file identifier to a YAML string of variables. -/
structure PlaybookContext where
  varInfiles : List (List Char × List Char)
  includeVars : List (List Char × List Char)

/-- `formatter.load_and_merge_vars_in_context`, with `yaml.load`
abstracted by `load` (returning the parsed variable mapping; a vars
string that parses to a non-mapping would raise in Python and is
outside this model). Later entries override earlier ones via `|=`. -/
def load_and_merge_vars_in_context
    (load : List Char → List (List Char × YVal)) (vs : List (List Char)) :
    List (List Char × YVal) :=
  vs.foldl (fun acc v => pyUnion acc (load v)) []

/-- The `d["vars"] = merged_vars if "vars" not in d else (d["vars"] | merged_vars)`
step: a present `vars` value must be a mapping, otherwise `|` raises
`TypeError`. -/
def varsMerged (m1 : List (List Char × YVal))
    (merged : List (List Char × YVal)) :
    Except Unit (List (List Char × YVal)) :=
  match pyLookup m1 varsKey with
  | none => .ok (pySet m1 varsKey (.mapV merged))
  | some (.mapV vm) => .ok (pySet m1 varsKey (.mapV (pyUnion vm merged)))
  | some _ => .error ()

/-- One iteration of the `vars_files` pruning loop:
`d["vars_files"] = [file for file in d["vars_files"] if file != vars_file]`
(the comprehension iterates the current value, so it must be iterable,
and always produces a list). -/
def pruneStep (mm : List (List Char × YVal)) (fk : List Char) :
    Except Unit (List (List Char × YVal)) :=
  match pyLookup mm varsFilesKey with
  | some vv =>
    match yvalElems vv with
    | .error e => .error e
    | .ok es =>
      .ok (pySet mm varsFilesKey (.listV (es.filter (fun f => ! yStrEq f fk))))
  | none => .ok mm

/-- The `vars_files` pruning of `expand_vars_playbook`: if the play has
a `vars_files` key, filter each `varInfiles` key out of its value, and
delete the key when the final list is empty (`len` of a `None` value
raises). -/
def pruneVarsFiles (infileKeys : List (List Char))
    (m3 : List (List Char × YVal)) : Except Unit YVal :=
  match pyLookup m3 varsFilesKey with
  | none => .ok (.mapV m3)
  | some _ =>
    match infileKeys.foldlM pruneStep m3 with
    | .error e => .error e
    | .ok m4 =>
      match pyLookup m4 varsFilesKey with
      | none => .ok (.mapV m4)
      | some vv2 =>
        match pyLen vv2 with
        | .error e => .error e
        | .ok n =>
          if n = 0 then .ok (.mapV (pyRemove m4 varsFilesKey)) else .ok (.mapV m4)

/-- The per-play body of the `for d in data:` loop of
`expand_vars_playbook`: pop the last key, merge `vars`, re-append the
last key, then prune `vars_files`. A non-dict play or an empty play
raises (`AttributeError` / `IndexError`). -/
def processPlay (merged : List (List Char × YVal)) (infileKeys : List (List Char))
    (d : YVal) : Except Unit YVal :=
  match d with
  | .mapV m =>
    match lastOf (m.map (fun kv => kv.1)) with
    | none => .error ()
    | some last_key =>
      match pyLookup m last_key with
      | none => .error ()
      | some last_val =>
        let m1 := pyRemove m last_key
        match varsMerged m1 merged with
        | .error e => .error e
        | .ok m2 => pruneVarsFiles infileKeys (pySet m2 last_key last_val)
  | _ => .error ()

/-- `formatter.expand_vars_playbook`, with the vars-file YAML loader
abstracted by `load`. When the merged variable mapping is empty the
data is untouched; otherwise every play is processed in place (a
non-list document cannot be iterated into dict plays and is modelled as
an error). -/
def expand_vars_playbook (load : List Char → List (List Char × YVal))
    (actx : PlaybookContext) (data : YVal) : Except Unit YVal :=
  let var_infiles := actx.varInfiles.map (fun kv => kv.2)
  let include_vars := actx.includeVars.map (fun kv => kv.2)
  let merged := load_and_merge_vars_in_context load (var_infiles ++ include_vars)
  if 0 < merged.length then
    match data with
    | .listV plays =>
      match exMapM (processPlay merged (actx.varInfiles.map (fun kv => kv.1))) plays with
      | .error e => .error e
      | .ok plays2 => .ok (.listV plays2)
    | _ => .error ()
  else .ok data

/-- Static configuration of the WCA SaaS pipeline relevant to model-id
resolution: the optional static `model_id` override and the one-click
trial default (empty string models an unset, falsy value). -/
structure WcaPipelineConfig where
  model_id : List Char
  one_click_default_model_id : List Char

/-- An organization's WCA state: the model id stored for it by the
secret manager, if any. -/
structure WcaOrganization where
  secret_model_id : Option (List Char)

inductive WcaError where
  | noDefaultModelId : WcaError
  | modelIdNotFound : WcaError

/-- The organization's stored model-id secret, `none` when there is no
organization context at all. -/
def orgSecret : Option WcaOrganization → Option (List Char)
  | none => none
  | some o => o.secret_model_id

/-- Modelled from the spec: `getModelId(user, organizationId,
requestedModelId?)` of the WCA SaaS pipeline — the implementation is
not part of the source tree, only its unit tests are
(`test_wca_client.py`). The spec gives the precedence chain
explicit request > static configuration > organization default >
trial default > `NoDefaultModelId`; the tests pin where the trial sits:
`test_get_model_id_with_active_trial` returns the one-click trial
default even over an explicit requested id, while
`test_get_api_key_with_wca_configured` shows an organization with a
configured secret bypassing the trial default. The model therefore
takes the trial branch first, gated on the organization having no
configured model secret. -/
def get_model_id (cfg : WcaPipelineConfig) (org : Option WcaOrganization)
    (trial_active : Bool) (requested : List Char) : Except WcaError (List Char) :=
  if trial_active && (orgSecret org).isNone then
    .ok cfg.one_click_default_model_id
  else if requested.isEmpty then
    if cfg.model_id.isEmpty then
      match org with
      | none => .error .noDefaultModelId
      | some o =>
        match o.secret_model_id with
        | some m => .ok m
        | none => .error .modelIdNotFound
    else .ok cfg.model_id
  else .ok requested

/-! ### Helper lemmas about list indexing -/

theorem getD_append_lt (xs ys : List Char) (d : Char) :
    ∀ n, n < xs.length → (xs ++ ys).getD n d = xs.getD n d := by
  induction xs with
  | nil => intro n h; simp at h
  | cons x xs ih =>
    intro n h
    cases n with
    | zero => rfl
    | succ m =>
      have hm : m < xs.length := by simpa using h
      simpa [List.getD, List.get?] using ih m hm

theorem getD_concat_self (xs : List Char) (c d : Char) :
    (xs ++ [c]).getD xs.length d = c := by
  induction xs with
  | nil => rfl
  | cons x xs ih => simp [List.getD, List.get?, ih]

theorem take_append_le (xs ys : List Char) :
    ∀ n, n ≤ xs.length → (xs ++ ys).take n = xs.take n := by
  induction xs with
  | nil =>
    intro n h
    have hn : n = 0 := by simpa using h
    subst hn
    rfl
  | cons x xs ih =>
    intro n h
    cases n with
    | zero => rfl
    | succ m => simp [List.take_succ_cons, ih m (by simpa using h)]

/-! ### C2: `unify_prompt_ending` -/

theorem unifyGo_append (xs : List Char) (c : Char) :
    ∀ i, i < xs.length → unifyGo (xs ++ [c]) i = unifyGo xs i := by
  intro i
  induction i with
  | zero => intro _; rfl
  | succ j ih =>
    intro h
    have h1 : j + 1 < xs.length := h
    have hg : (xs ++ [c]).getD (j + 1) ' ' = xs.getD (j + 1) ' ' :=
      getD_append_lt xs [c] ' ' (j + 1) h1
    have ht : (xs ++ [c]).take (j + 2) = xs.take (j + 2) :=
      take_append_le xs [c] (j + 2) (by omega)
    simp only [unifyGo]
    rw [hg, ht]
    by_cases hc : colonOrSpace (xs.getD (j + 1) ' ') = true
    · rw [if_pos hc, if_pos hc, ih (by omega)]
    · rw [if_neg hc, if_neg hc]

theorem unifySpecAmended_append_trim (xs : List Char) (c : Char)
    (hc : colonOrSpace c = true) :
    unifySpecAmended (xs ++ [c]) = unifySpecAmended xs := by
  have hdw : (xs ++ [c]).reverse.dropWhile colonOrSpace =
      xs.reverse.dropWhile colonOrSpace := by
    rw [List.reverse_append]
    simp [List.dropWhile_cons, hc]
  simp only [unifySpecAmended, hdw]

/-- C2 (amended form): `unify_prompt_ending` removes the trailing
colon-or-whitespace characters and appends one newline, except that the
character at index 0 is never examined: whenever at most one character
survives the trimming, the result is exactly `"\n"`. The claim's own
example still holds. -/
theorem c2_unify_prompt_ending_amended :
    (∀ p, unify_prompt_ending p = unifySpecAmended p) ∧
      unify_prompt_ending ("  - name: foo:  ".data) = ("  - name: foo".data ++ ['\n']) := by
  constructor
  · intro p
    induction p using List.reverseRecOn with
    | nil => rfl
    | append_singleton xs c ih =>
      by_cases hc : colonOrSpace c = true
      · cases xs with
        | nil =>
          simp [unify_prompt_ending, unifyGo, unifySpecAmended, List.dropWhile_cons, hc]
        | cons y ys =>
          have hlen : (y :: ys ++ [c]).length - 1 = ys.length + 1 := by
            simp
          have hstep : unify_prompt_ending (y :: ys ++ [c]) =
              unifyGo (y :: ys ++ [c]) (ys.length + 1) := by
            simp [unify_prompt_ending, hlen]
          have hg : (y :: ys ++ [c]).getD (ys.length + 1) ' ' = c :=
            getD_concat_self (y :: ys) c ' '
          rw [hstep]
          simp only [unifyGo, hg, hc, if_true]
          have := unifyGo_append (y :: ys) c ys.length (by simp)
          rw [this]
          have hx : unifyGo (y :: ys) ys.length = unify_prompt_ending (y :: ys) := by
            simp [unify_prompt_ending]
          rw [hx, ih, unifySpecAmended_append_trim (y :: ys) c hc]
      · have hcf : colonOrSpace c = false := by
          simpa using hc
        cases xs with
        | nil =>
          simp [unify_prompt_ending, unifyGo, unifySpecAmended, List.dropWhile_cons, hcf]
        | cons y ys =>
          have hlen : (y :: ys ++ [c]).length - 1 = ys.length + 1 := by
            simp
          have hstep : unify_prompt_ending (y :: ys ++ [c]) =
              unifyGo (y :: ys ++ [c]) (ys.length + 1) := by
            simp [unify_prompt_ending, hlen]
          have hg : (y :: ys ++ [c]).getD (ys.length + 1) ' ' = c :=
            getD_concat_self (y :: ys) c ' '
          rw [hstep]
          have hbody : unifyGo (y :: ys ++ [c]) (ys.length + 1) =
              (y :: ys ++ [c]).take (ys.length + 2) ++ ['\n'] := by
            simp [unifyGo, hg, hcf]
          rw [hbody]
          have htk : (y :: ys ++ [c]).take (ys.length + 2) = y :: ys ++ [c] := by
            have hl : (y :: ys ++ [c]).length = ys.length + 2 := by simp
            rw [← hl]
            exact List.take_length _
          rw [htk]
          have hr : ((y :: ys ++ [c]).reverse.dropWhile colonOrSpace).reverse =
              y :: ys ++ [c] := by
            rw [List.reverse_append]
            simp [List.dropWhile_cons, hcf]
          have hlen2 : ¬ (y :: ys ++ [c]).length ≤ 1 := by simp
          simp only [unifySpecAmended]
          rw [hr, if_neg hlen2]
  · decide

/-- C2 counterexample: on the prompt `"a:"` the code returns `"\n"`,
while the claim's trailing-trim description demands `"a\n"`; index 0 is
never examined by the loop, so the surviving first character is dropped. -/
theorem c2_counterexample :
    unify_prompt_ending ['a', ':'] = ['\n'] ∧
      unifySpecClaim ['a', ':'] = ['a', '\n'] ∧
      ¬ unify_prompt_ending ['a', ':'] = unifySpecClaim ['a', ':'] := by
  refine ⟨rfl, by decide, by decide⟩

/-! ### C1: model-id resolution of the WCA SaaS pipeline -/

/-- C1 counterexample: with an active trial and no organization secret,
an explicit requested model id is overridden by the one-click trial
default (`test_get_model_id_with_active_trial` requests
`"override-model-name"` and asserts `"fancy-model"`), so "the returned
model id equals the requested one" fails. -/
theorem c1_counterexample :
    get_model_id ⟨[], ("fancy-model".data)⟩ (some ⟨none⟩) true
        ("override-model-name".data)
      = .ok ("fancy-model".data) ∧
    ¬ (("fancy-model".data : List Char) = ("override-model-name".data)) :=
  ⟨rfl, by decide⟩

/-- C1 (amended): model-id resolution. When the user has an active
trial AND the organization has no configured model secret, the
trial-plan default wins (even over an explicit request); otherwise an
explicit requested model id wins over the backend's static
configuration override, which wins over the organization default; when
none of those is resolvable and no organization context exists,
`NoDefaultModelId` is raised (`ModelIdNotFound` when an organization
exists but has no secret). -/
theorem c1_model_id_resolution (cfg : WcaPipelineConfig)
    (org : Option WcaOrganization) (trial : Bool) (req : List Char) :
    (trial = true → orgSecret org = none →
      get_model_id cfg org trial req = .ok cfg.one_click_default_model_id) ∧
    (¬ (trial = true ∧ orgSecret org = none) → ¬ req = [] →
      get_model_id cfg org trial req = .ok req) ∧
    (¬ (trial = true ∧ orgSecret org = none) → req = [] → ¬ cfg.model_id = [] →
      get_model_id cfg org trial req = .ok cfg.model_id) ∧
    (¬ (trial = true ∧ orgSecret org = none) → req = [] → cfg.model_id = [] →
      ∀ o m, org = some o → o.secret_model_id = some m →
        get_model_id cfg org trial req = .ok m) ∧
    (req = [] → cfg.model_id = [] → org = none → trial = false →
      get_model_id cfg org trial req = .error .noDefaultModelId) ∧
    (trial = false → req = [] → cfg.model_id = [] →
      ∀ o, org = some o → o.secret_model_id = none →
        get_model_id cfg org trial req = .error .modelIdNotFound) := by
  have hgate : ¬ (trial = true ∧ orgSecret org = none) →
      (trial && (orgSecret org).isNone) = false := by
    intro hno
    cases htr : trial
    · rfl
    · cases horg : orgSecret org
      · exact absurd ⟨htr, horg⟩ hno
      · simp [horg]
  have hemp : ∀ l : List Char, ¬ l = [] → l.isEmpty = false := by
    intro l hl
    cases l with
    | nil => exact absurd rfl hl
    | cons c cs => rfl
  refine ⟨?_, ?_, ?_, ?_, ?_, ?_⟩
  · intro h1 h2
    simp [get_model_id, h1, h2]
  · intro hno hreq
    simp [get_model_id, hgate hno, hemp req hreq]
  · intro hno hreq hcfg
    simp [get_model_id, hgate hno, hreq, hemp cfg.model_id hcfg]
  · intro hno hreq hcfg o m ho hm
    simp [get_model_id, orgSecret, hgate hno, hreq, hcfg, ho, hm]
  · intro hreq hcfg ho htr
    simp [get_model_id, hreq, hcfg, ho, htr]
  · intro htr hreq hcfg o ho hs
    simp [get_model_id, htr, hreq, hcfg, ho, hs]

theorem c1_witness :
    ¬ (true = true ∧ orgSecret (some ⟨some ("org-model".data)⟩) = none) ∧
      get_model_id ⟨("gemini".data), []⟩ (some ⟨some ("org-model".data)⟩) true
          ("bard".data)
        = .ok ("bard".data) :=
  ⟨by decide,
    (c1_model_id_resolution ⟨("gemini".data), []⟩
      (some ⟨some ("org-model".data)⟩) true ("bard".data)).2.1
      (by decide) (by decide)⟩

/-! ### C3 and C4: `preprocess` -/

/-- C3: for every single-task prompt whose concatenation with the
context normalizes successfully (to `t`), `preprocess` splits `t` on its
last two newlines: with exactly 3 segments the returned context is
`segment 0 ++ "\n"` and the prompt is `segment 1`; with exactly 2
segments the context is `""` and the prompt is `segment 0`; in the
returned prompt everything up to and including the first `"- name: "`
is kept verbatim and the remainder is the single-space join of its
whitespace-separated words. -/
theorem c3_preprocess_single_task (normalize : List Char → Option (List Char))
    (ctx prompt t : List Char)
    (hm : is_multi_task_prompt prompt = false)
    (hn : normalize (ctx ++ '\n' :: prompt) = some t) :
    ((rsplit2 t).length = 3 →
      preprocess normalize ctx prompt =
        ((rsplit2 t).getD 0 [] ++ ['\n'],
          (pyPartition namePat ((rsplit2 t).getD 1 [])).1
            ++ (pyPartition namePat ((rsplit2 t).getD 1 [])).2.1
            ++ joinSpace (pyWords (pyPartition namePat ((rsplit2 t).getD 1 [])).2.2))) ∧
    ((rsplit2 t).length = 2 →
      preprocess normalize ctx prompt =
        ([],
          (pyPartition namePat ((rsplit2 t).getD 0 [])).1
            ++ (pyPartition namePat ((rsplit2 t).getD 0 [])).2.1
            ++ joinSpace (pyWords (pyPartition namePat ((rsplit2 t).getD 0 [])).2.2))) := by
  constructor
  · intro h3
    simp [preprocess, hn, hm, h3, handle_spaces]
  · intro h2
    simp [preprocess, hn, hm, h2, handle_spaces]

theorem c3_witness :
    is_multi_task_prompt ("- name: x".data) = false ∧
      (rsplit2 ("- hosts: all\n- name: a  b\n".data)).length = 3 ∧
      preprocess (fun _ => some ("- hosts: all\n- name: a  b\n".data))
          ("c".data) ("- name: x".data)
        = ("- hosts: all".data ++ ['\n'], "- name: a b".data) := by
  refine ⟨by decide, by decide, ?_⟩
  have h := (c3_preprocess_single_task
    (fun _ => some ("- hosts: all\n- name: a  b\n".data)) ("c".data)
    ("- name: x".data) ("- hosts: all\n- name: a  b\n".data)
    (by decide) rfl).1 (by decide)
  rw [h]
  decide

/-- C4: when `normalize_yaml` of `context + "\n" + prompt` yields null,
`preprocess` returns the original pair unchanged; when it succeeds and
the prompt is multi-task, the entire normalized text becomes the new
context and the original multi-task prompt is returned unmodified. -/
theorem c4_preprocess_null_and_multi (normalize : List Char → Option (List Char))
    (ctx prompt : List Char) :
    (normalize (ctx ++ '\n' :: prompt) = none →
      preprocess normalize ctx prompt = (ctx, prompt)) ∧
    (∀ t, normalize (ctx ++ '\n' :: prompt) = some t →
      is_multi_task_prompt prompt = true →
      preprocess normalize ctx prompt = (t, prompt)) := by
  constructor
  · intro h
    simp [preprocess, h]
  · intro t h hm
    simp [preprocess, h, hm]

theorem c4_witness :
    preprocess (fun _ => none) ("a".data) ("b".data) = ("a".data, "b".data) ∧
      preprocess (fun _ => some ("t0".data)) ("a".data) ("# x & y".data)
        = ("t0".data, "# x & y".data) :=
  ⟨(c4_preprocess_null_and_multi (fun _ => none) ("a".data) ("b".data)).1 rfl,
    (c4_preprocess_null_and_multi (fun _ => some ("t0".data)) ("a".data)
      ("# x & y".data)).2 ("t0".data) rfl (by decide)⟩

/-! ### C6: `get_fqcn_or_module_from_prediction` -/

theorem reIterGo_eq_find (tryAt : List Char → Option (List Char × List Char))
    (pred : List Char → Bool) :
    ∀ fuel s, reIterGo tryAt pred fuel s
      = (reMatchesGo tryAt fuel s).find? (fun g => ! pred g) := by
  intro fuel
  induction fuel with
  | zero => intro s; rfl
  | succ f ih =>
    intro s
    simp only [reIterGo, reMatchesGo]
    cases h : reScan tryAt s with
    | none => rfl
    | some m =>
      obtain ⟨g, rest⟩ := m
      by_cases hp : pred g = true
      · simp [List.find?, hp, ih]
      · simp [List.find?, hp]

/-- C6: `get_fqcn_or_module_from_prediction` returns the first
`finditer` match of the three-segment dotted pattern when one exists,
otherwise the first match of the dotted-identifier pattern whose value
is not in the task-keyword set, otherwise `none` (a total function, so
it cannot raise); `None` input yields `None`. In particular it returns
`"ansible.builtin.apt"` for `"ansible.builtin.apt:\n  name: foo"` and
`none` for `"name: foo"` whenever `"name"` is a task keyword. -/
theorem c6_get_fqcn_or_module (kw : List (List Char)) (s : List Char) :
    (get_fqcn_or_module_from_prediction kw (some s)
      = match (reMatches fqcnTryAt s).head? with
        | some g => some g
        | none => (reMatches moduleTryAt s).find? (fun v => ! kw.contains v)) ∧
    get_fqcn_or_module_from_prediction kw none = none ∧
    get_fqcn_or_module_from_prediction kw
        (some ("ansible.builtin.apt:\n  name: foo".data))
      = some ("ansible.builtin.apt".data) ∧
    (kw.contains ("name".data) = true →
      get_fqcn_or_module_from_prediction kw (some ("name: foo".data)) = none) := by
  have hf : ∀ u, _get_fqcn_from_prediction u = (reMatches fqcnTryAt u).head? := by
    intro u
    unfold _get_fqcn_from_prediction parse_module_from_prediction reMatches
    rw [reIterGo_eq_find]
    cases reMatchesGo fqcnTryAt (u.length + 1) u with
    | nil => rfl
    | cons a l => simp [List.find?]
  have hm : ∀ u, _get_module_from_prediction kw u
      = (reMatches moduleTryAt u).find? (fun v => ! kw.contains v) := by
    intro u
    unfold _get_module_from_prediction parse_module_from_prediction reMatches
    rw [reIterGo_eq_find]
  refine ⟨?_, rfl, ?_, ?_⟩
  · simp only [get_fqcn_or_module_from_prediction]
    rw [hf, hm]
    cases hx : (reMatches fqcnTryAt s).head? with
    | none => rfl
    | some g => rfl
  · simp only [get_fqcn_or_module_from_prediction]
    rw [show _get_fqcn_from_prediction ("ansible.builtin.apt:\n  name: foo".data)
      = some ("ansible.builtin.apt".data) from by decide]
  · intro hk
    simp only [get_fqcn_or_module_from_prediction]
    rw [show _get_fqcn_from_prediction ("name: foo".data) = none from by decide]
    rw [hm, show reMatches moduleTryAt ("name: foo".data) = [("name".data)] from by decide]
    have hk2 : ("name".data : List Char) ∈ kw := by simpa using hk
    simp [List.find?, hk2]

theorem c6_witness :
    (["name".data] : List (List Char)).contains ("name".data) = true ∧
      get_fqcn_or_module_from_prediction ["name".data] (some ("name: foo".data)) = none :=
  ⟨by decide,
    (c6_get_fqcn_or_module ["name".data] ("name: foo".data)).2.2.2 (by decide)⟩

/-! ### C10: `get_task_names_from_tasks` -/

theorem exMapM_ok_of_all {α β : Type} (f : α → Except Unit β) (g : α → β) :
    ∀ l : List α, (∀ a ∈ l, f a = .ok (g a)) → exMapM f l = .ok (l.map g) := by
  intro l
  induction l with
  | nil => intro _; rfl
  | cons x xs ih =>
    intro h
    have hx := h x (by simp)
    have hxs := ih (fun a ha => h a (by simp [ha]))
    simp [exMapM, hx, hxs]

theorem exMapM_ok_mem {α β : Type} (f : α → Except Unit β) :
    ∀ l l', exMapM f l = .ok l' → ∀ a ∈ l, ∃ b, f a = .ok b := by
  intro l
  induction l with
  | nil =>
    intro l' _ a ha
    simp at ha
  | cons x xs ih =>
    intro l' h a ha
    cases hfx : f x with
    | error e =>
      simp only [exMapM, hfx] at h
      exact Except.noConfusion h
    | ok y =>
      cases hxs : exMapM f xs with
      | error e =>
        simp only [exMapM, hfx, hxs] at h
        exact Except.noConfusion h
      | ok ys =>
        rcases List.mem_cons.mp ha with rfl | ha2
        · exact ⟨y, hfx⟩
        · exact ih ys hxs a ha2

/-- C10: when the parsed YAML of the input is not a non-empty list whose
first element is a mapping with a string-valued `name` key, or some task
in the list has no `name` key, `get_task_names_from_tasks` raises;
otherwise it returns the tasks' `name` values in document order. -/
theorem c10_get_task_names_from_tasks (parse : List Char → Except Unit YVal)
    (tasks : List Char) (v : YVal) (hp : parse tasks = .ok v) :
    (wellFormedTasks v = true →
      ∃ ts, v = .listV ts ∧
        get_task_names_from_tasks parse tasks = .ok (taskNameValues ts)) ∧
    (wellFormedTasks v = false →
      get_task_names_from_tasks parse tasks = .error ()) := by
  constructor
  · intro hw
    cases v with
    | nullV => simp [wellFormedTasks] at hw
    | strV s => simp [wellFormedTasks] at hw
    | mapV m => simp [wellFormedTasks] at hw
    | listV ts =>
      refine ⟨ts, rfl, ?_⟩
      cases ts with
      | nil => simp [wellFormedTasks] at hw
      | cons t0 rest =>
        have hw2 := hw
        simp only [wellFormedTasks, Bool.and_eq_true] at hw2
        obtain ⟨h1, h2⟩ := hw2
        cases t0 with
        | nullV => simp at h1
        | strV s => simp at h1
        | listV l => simp at h1
        | mapV m =>
          have h1' : (match pyLookup m nameKey with
              | some (YVal.strV _) => true
              | _ => false) = true := h1
          cases hlk : pyLookup m nameKey with
          | none => rw [hlk] at h1'; simp at h1'
          | some nv =>
            cases nv with
            | nullV => rw [hlk] at h1'; simp at h1'
            | listV l => rw [hlk] at h1'; simp at h1'
            | mapV mm => rw [hlk] at h1'; simp at h1'
            | strV s0 =>
              have hall := (List.all_eq_true).mp h2
              simp only [get_task_names_from_tasks, hp, hlk]
              have := exMapM_ok_of_all
                (fun t =>
                  match t with
                  | YVal.mapV mm =>
                    match pyLookup mm nameKey with
                    | some nv => Except.ok nv
                    | none => Except.error ()
                  | _ => Except.error ())
                (fun t =>
                  match t with
                  | YVal.mapV mm =>
                    match pyLookup mm nameKey with
                    | some nv => nv
                    | none => YVal.nullV
                  | _ => YVal.nullV)
                (YVal.mapV m :: rest) ?_
              · rw [this]
                rfl
              · intro a ha
                have hga := hall a ha
                cases a with
                | nullV => simp at hga
                | strV s1 => simp at hga
                | listV l1 => simp at hga
                | mapV m1 =>
                  have hga' : (pyLookup m1 nameKey).isSome = true := hga
                  obtain ⟨w, hw3⟩ := Option.isSome_iff_exists.mp hga'
                  show (match pyLookup m1 nameKey with
                      | some nv => Except.ok nv
                      | none => Except.error ())
                    = Except.ok (match pyLookup m1 nameKey with
                      | some nv => nv
                      | none => YVal.nullV)
                  rw [hw3]
  · intro hw
    cases v with
    | nullV => simp [get_task_names_from_tasks, hp]
    | strV s => simp [get_task_names_from_tasks, hp]
    | mapV m => simp [get_task_names_from_tasks, hp]
    | listV ts =>
      cases ts with
      | nil => simp [get_task_names_from_tasks, hp]
      | cons t0 rest =>
        simp only [wellFormedTasks, Bool.and_eq_false_iff] at hw
        cases t0 with
        | nullV => simp [get_task_names_from_tasks, hp]
        | strV s => simp [get_task_names_from_tasks, hp]
        | listV l => simp [get_task_names_from_tasks, hp]
        | mapV m =>
          cases hlk : pyLookup m nameKey with
          | none => simp [get_task_names_from_tasks, hp, hlk]
          | some nv =>
            cases nv with
            | nullV => simp [get_task_names_from_tasks, hp, hlk]
            | listV l => simp [get_task_names_from_tasks, hp, hlk]
            | mapV mm => simp [get_task_names_from_tasks, hp, hlk]
            | strV s0 =>
              rcases hw with hbad | hall
              · have hbad' : (match pyLookup m nameKey with
                    | some (YVal.strV _) => true
                    | _ => false) = false := hbad
                rw [hlk] at hbad'
                simp at hbad'
              · simp only [get_task_names_from_tasks, hp, hlk]
                cases hms : exMapM
                    (fun t =>
                      match t with
                      | YVal.mapV mm =>
                        match pyLookup mm nameKey with
                        | some nv => Except.ok nv
                        | none => Except.error ()
                      | _ => Except.error ()) (YVal.mapV m :: rest) with
                | error e => rfl
                | ok names =>
                  exfalso
                  have hok := exMapM_ok_mem _ _ _ hms
                  have : (YVal.mapV m :: rest).all (fun t =>
                      match t with
                      | YVal.mapV m => (pyLookup m nameKey).isSome
                      | _ => false) = true := by
                    rw [List.all_eq_true]
                    intro a ha
                    obtain ⟨b, hb⟩ := hok a ha
                    cases a with
                    | nullV => simp at hb
                    | strV s1 => simp at hb
                    | listV l1 => simp at hb
                    | mapV m1 =>
                      show (pyLookup m1 nameKey).isSome = true
                      have hb' : (match pyLookup m1 nameKey with
                          | some nv => Except.ok nv
                          | none => Except.error ()) = Except.ok b := hb
                      cases hx : pyLookup m1 nameKey with
                      | none =>
                        rw [hx] at hb'
                        exact Except.noConfusion hb'
                      | some w => simp [hx]
                  rw [this] at hall
                  exact Bool.noConfusion hall

theorem c10_witness :
    wellFormedTasks (.listV [.mapV [(("name".data), .strV ("a".data))],
        .mapV [(("name".data), .strV ("b".data))]]) = true ∧
      ∃ ts, (YVal.listV [.mapV [(("name".data), .strV ("a".data))],
          .mapV [(("name".data), .strV ("b".data))]]) = .listV ts ∧
        get_task_names_from_tasks
            (fun _ => .ok (.listV [.mapV [(("name".data), .strV ("a".data))],
              .mapV [(("name".data), .strV ("b".data))]])) ("x".data)
          = .ok (taskNameValues ts) :=
  ⟨by decide,
    (c10_get_task_names_from_tasks
      (fun _ => .ok (.listV [.mapV [(("name".data), .strV ("a".data))],
        .mapV [(("name".data), .strV ("b".data))]])) ("x".data) _ rfl).1 (by decide)⟩

/-! ### C5: `restore_original_task_names` -/

theorem drop_eq_get_cons {α : Type} (names : List α) :
    ∀ i, names.drop i = (match names.get? i with
      | some nm => nm :: names.drop (i + 1)
      | none => []) := by
  induction names with
  | nil => intro i; cases i <;> rfl
  | cons x xs ih =>
    intro i
    cases i with
    | zero => rfl
    | succ j => exact ih j

theorem substFold_cons_map (nms : List (List Char)) (x : List Char)
    (m : List (List Char × YVal)) (ts : List YVal) (out : List Char) :
    substFold (x :: nms) (YVal.mapV m :: ts) out
      = substFold nms ts
          (match (pyLookup m nameKey).getD (.strV []) with
            | .strV task_name =>
              strReplace out (nameLine ++ task_name)
                (strReplace (nameLine ++ task_name) task_name x)
            | _ => out) := rfl

theorem restoreLoop_eq_substFold (names : List (List Char)) :
    ∀ ts i out,
      (∀ t ∈ ts, ∃ m nm, t = YVal.mapV m ∧
        (pyLookup m nameKey).getD (.strV []) = .strV nm) →
      restoreLoop names ts i out = .ok (substFold (names.drop i) ts out) := by
  intro ts
  induction ts with
  | nil => intro i out _; rfl
  | cons t ts ih =>
    intro i out hwf
    obtain ⟨m, nm, rfl, hnm⟩ := hwf t (by simp)
    have hrest : ∀ t2 ∈ ts, ∃ m2 nm2, t2 = YVal.mapV m2 ∧
        (pyLookup m2 nameKey).getD (.strV []) = .strV nm2 :=
      fun t2 ht2 => hwf t2 (by simp [ht2])
    simp only [restoreLoop, hnm]
    cases hg : names.get? i with
    | none =>
      have hd : names.drop i = [] := by
        rw [drop_eq_get_cons names i, hg]
      rw [hd]
      rfl
    | some x =>
      have hd : names.drop i = x :: names.drop (i + 1) := by
        rw [drop_eq_get_cons names i, hg]
      rw [hd, substFold_cons_map, hnm]
      exact ih (i + 1)
        (strReplace out (nameLine ++ nm) (strReplace (nameLine ++ nm) nm x)) hrest

/-- C5 counterexample: `restore_original_task_names` CAN raise. With an
empty context and a generated document `[{"name": "a"}, "b"]` (which is
what `yaml.safe_load` returns for `"- name: a\n- b"`, while
`safe_load("")` returns `None`), the second generated "task" is a bare
string: `task.get("name", "")` raises `AttributeError`, which the
`except IndexError` clause does not catch. -/
theorem c5_counterexample :
    restore_original_task_names
      (fun s => if s.isEmpty then .ok .nullV
        else .ok (.listV [.mapV [(nameKey, .strV ("a".data))], .strV ("b".data)]))
      ("- name: a\n- b".data) ("# a & b".data) [] = .error () := rfl

/-- C5 (amended): `restore_original_task_names` returns the original
`output_yaml` unchanged on a YAML-parse failure of either document, and
for a non-multi-task prompt or empty `output_yaml`; when every
generated task beyond the context's tasks is a mapping whose `name`
value is a string, substitution walks those tasks in order paired with
the prompt task names, stopping (without an exception, keeping earlier
substitutions) when the names are exhausted. It can, however, raise
when such a generated task is not a mapping or its `name` is not a
string. -/
theorem c5_restore_amended (parse : List Char → Except Unit YVal)
    (out prompt pc : List Char) :
    ((out.isEmpty = true ∨ is_multi_task_prompt prompt = false) →
      restore_original_task_names parse out prompt pc = .ok out) ∧
    ((∃ e, parse pc = .error e) ∨ (∃ e, parse (pc ++ out) = .error e) →
      restore_original_task_names parse out prompt pc = .ok out) ∧
    (∀ pcd fd k ts,
      out.isEmpty = false → is_multi_task_prompt prompt = true →
      parse pc = .ok pcd → parse (pc ++ out) = .ok fd →
      pyLen (get_task_list_from_yaml_data_obj pcd) = .ok k →
      pySliceFrom (get_task_list_from_yaml_data_obj fd) k = .ok ts →
      (∀ t ∈ ts, ∃ m nm, t = YVal.mapV m ∧
        (pyLookup m nameKey).getD (.strV []) = .strV nm) →
      restore_original_task_names parse out prompt pc
        = .ok (substFold (get_task_names_from_prompt prompt) ts out)) := by
  refine ⟨?_, ?_, ?_⟩
  · intro h
    rcases h with h | h
    · simp [restore_original_task_names, h]
    · simp [restore_original_task_names, h]
  · intro h
    by_cases h1 : out.isEmpty = true
    · simp [restore_original_task_names, h1]
    · by_cases h2 : is_multi_task_prompt prompt = true
      · have hg : ¬ out.isEmpty = true ∧ is_multi_task_prompt prompt = true := ⟨h1, h2⟩
        simp only [restore_original_task_names]
        rw [if_pos hg]
        rcases h with ⟨e, he⟩ | ⟨e, he⟩
        · cases e
          rw [he]
        · cases e
          cases hpc : parse pc with
          | error e2 => rfl
          | ok pcd => rw [he]
      · have h2f : is_multi_task_prompt prompt = false := by
          simp at h2
          exact h2
        simp [restore_original_task_names, h2f]
  · intro pcd fd k ts hoe hm hpc hfd hk hts hwf
    have hg : (¬ out.isEmpty ∧ is_multi_task_prompt prompt = true) := by
      constructor
      · simp [hoe]
      · exact hm
    simp only [restore_original_task_names, if_pos hg, hpc, hfd, hk, hts]
    rw [restoreLoop_eq_substFold (get_task_names_from_prompt prompt) ts 0 out hwf]
    rw [List.drop_zero]

theorem c5_witness :
    is_multi_task_prompt ("# a".data) = true ∧
      restore_original_task_names
          (fun s => if s.isEmpty then .ok .nullV
            else .ok (.listV [.mapV [(nameKey, .strV ("x".data))],
              .mapV [(nameKey, .strV ("y".data))]]))
          ("- name:  x\n- name:  y".data) ("# a".data) []
        = .ok ("- name:  a\n- name:  y".data) := by
  refine ⟨by decide, ?_⟩
  have happ := (c5_restore_amended
      (fun s => if s.isEmpty then .ok .nullV
        else .ok (.listV [.mapV [(nameKey, .strV ("x".data))],
          .mapV [(nameKey, .strV ("y".data))]]))
      ("- name:  x\n- name:  y".data) ("# a".data) []).2.2
    YVal.nullV
    (.listV [.mapV [(nameKey, .strV ("x".data))], .mapV [(nameKey, .strV ("y".data))]])
    0
    [.mapV [(nameKey, .strV ("x".data))], .mapV [(nameKey, .strV ("y".data))]]
    (by decide) (by decide) rfl rfl rfl rfl
    (by
      intro t ht
      rcases List.mem_cons.mp ht with rfl | ht2
      · exact ⟨_, _, rfl, rfl⟩
      · rcases List.mem_cons.mp ht2 with rfl | ht3
        · exact ⟨_, _, rfl, rfl⟩
        · simp at ht3)
  rw [happ]
  exact congrArg Except.ok (by decide)

/-! ### C7: idempotence of `normalize_yaml` -/

/-- C7: `normalize_yaml` is idempotent on its own outputs. Under the
serializer contract that loading a dumped document yields the document
back (`load (dump d) = ok (some d)`, i.e. dumped text is canonical),
every successful output `x` of `normalize_yaml` (without additional
context) is a fixed point: `normalize_yaml x = ok (some x)`. -/
theorem c7_normalize_yaml_idempotent {Y C : Type}
    (load : List Char → Except Unit (Option Y)) (dump : Y → List Char)
    (expand : Y → C → Y)
    (hrt : ∀ d, load (dump d) = .ok (some d)) :
    ∀ y x, normalize_yaml load dump expand none y = .ok (some x) →
      normalize_yaml load dump expand none x = .ok (some x) := by
  intro y x h
  simp only [normalize_yaml] at h
  cases hl : load y with
  | error e =>
    rw [hl] at h
    exact Except.noConfusion h
  | ok od =>
    cases od with
    | none =>
      rw [hl] at h
      simp at h
    | some d =>
      rw [hl] at h
      simp only [Except.ok.injEq, Option.some.injEq] at h
      subst h
      simp [normalize_yaml, hrt d]

theorem c7_witness :
    normalize_yaml
        (fun s => if s.isEmpty then Except.ok none
          else Except.ok (some (s.length - 1)))
        (fun n => List.replicate (n + 1) 'a') (fun d (_ : Unit) => d) none
        (['a'])
      = .ok (some (['a'])) :=
  c7_normalize_yaml_idempotent
    (fun s => if s.isEmpty then Except.ok none
      else Except.ok (some (s.length - 1)))
    (fun n => List.replicate (n + 1) 'a') (fun d (_ : Unit) => d)
    (by
      intro d
      simp [List.replicate_succ])
    (['b']) (['a']) rfl

/-! ### C8: `expand_vars_playbook` and the last-key invariant -/

theorem lastOf_concat {α : Type} (l : List α) (a : α) :
    lastOf (l ++ [a]) = some a := by
  induction l with
  | nil => rfl
  | cons x xs ih =>
    cases xs with
    | nil => rfl
    | cons y ys => exact ih

theorem mem_of_lastOf {α : Type} :
    ∀ (l : List α) (a : α), lastOf l = some a → a ∈ l := by
  intro l
  induction l with
  | nil => intro a h; exact Option.noConfusion h
  | cons x xs ih =>
    intro a h
    cases xs with
    | nil =>
      have hx : x = a := by
        simpa [lastOf] using h
      simp [hx]
    | cons y ys =>
      have hmem := ih a h
      exact List.mem_cons_of_mem x hmem

theorem pyLookup_isSome_iff (k : List Char) :
    ∀ m, (pyLookup m k).isSome = true ↔ k ∈ m.map (fun kv => kv.1) := by
  intro m
  induction m with
  | nil => simp [pyLookup]
  | cons kv rest ih =>
    by_cases h : kv.1 = k
    · simp [pyLookup, h]
    · simp only [pyLookup, if_neg h, List.map_cons, List.mem_cons]
      constructor
      · intro hx
        exact Or.inr (ih.mp hx)
      · intro hx
        rcases hx with hx | hx
        · exact absurd hx.symm h
        · exact ih.mpr hx

theorem pyLookup_not_mem (k : List Char) (m : List (List Char × YVal))
    (h : ¬ k ∈ m.map (fun kv => kv.1)) : (pyLookup m k).isSome = false := by
  cases hx : (pyLookup m k).isSome
  · rfl
  · exact absurd ((pyLookup_isSome_iff k m).mp hx) h

theorem not_mem_keys_pyRemove (k : List Char) :
    ∀ m, ¬ k ∈ (pyRemove m k).map (fun kv => kv.1) := by
  intro m
  induction m with
  | nil => simp [pyRemove]
  | cons kv rest ih =>
    by_cases h : kv.1 = k
    · have hr : pyRemove (kv :: rest) k = pyRemove rest k := by
        simp [pyRemove, List.filter_cons, h]
      rw [hr]
      exact ih
    · have hr : pyRemove (kv :: rest) k = kv :: pyRemove rest k := by
        simp [pyRemove, List.filter_cons, h]
      rw [hr]
      simp only [List.map_cons, List.mem_cons]
      intro hx
      rcases hx with hx | hx
      · exact h hx.symm
      · exact ih hx

theorem pySet_keys_present (m : List (List Char × YVal)) (k : List Char) (v : YVal)
    (h : (pyLookup m k).isSome = true) :
    (pySet m k v).map (fun kv => kv.1) = m.map (fun kv => kv.1) := by
  simp only [pySet, h, if_true]
  clear h
  induction m with
  | nil => rfl
  | cons kv rest ih =>
    by_cases hk : kv.1 = k
    · simp only [List.map_cons, if_pos hk, ih]
      simp [hk]
    · simp only [List.map_cons, if_neg hk, ih]

theorem pySet_absent (m : List (List Char × YVal)) (k : List Char) (v : YVal)
    (h : (pyLookup m k).isSome = false) :
    pySet m k v = m ++ [(k, v)] := by
  simp [pySet, h]

theorem varsMerged_keys (m1 merged m2 : List (List Char × YVal))
    (h : varsMerged m1 merged = .ok m2) :
    (m2.map (fun kv => kv.1) = m1.map (fun kv => kv.1) ++ [varsKey] ∧
      ¬ varsKey ∈ m1.map (fun kv => kv.1)) ∨
    m2.map (fun kv => kv.1) = m1.map (fun kv => kv.1) := by
  unfold varsMerged at h
  cases hv : pyLookup m1 varsKey with
  | none =>
    rw [hv] at h
    simp only [Except.ok.injEq] at h
    left
    constructor
    · rw [← h, pySet_absent]
      · simp
      · simp [hv]
    · intro hmem
      have := (pyLookup_isSome_iff varsKey m1).mpr hmem
      rw [hv] at this
      exact Bool.noConfusion this
  | some vv =>
    rw [hv] at h
    cases vv with
    | nullV => exact Except.noConfusion h
    | strV s => exact Except.noConfusion h
    | listV l => exact Except.noConfusion h
    | mapV vm =>
      simp only [Except.ok.injEq] at h
      right
      rw [← h]
      exact pySet_keys_present m1 varsKey _ (by simp [hv])

theorem pruneStep_keys (mm mm2 : List (List Char × YVal)) (fk : List Char)
    (h : pruneStep mm fk = .ok mm2) :
    mm2.map (fun kv => kv.1) = mm.map (fun kv => kv.1) := by
  unfold pruneStep at h
  cases hv : pyLookup mm varsFilesKey with
  | none =>
    rw [hv] at h
    simp only [Except.ok.injEq] at h
    rw [← h]
  | some vv =>
    rw [hv] at h
    have h2 : (match yvalElems vv with
        | Except.error e => (Except.error e : Except Unit (List (List Char × YVal)))
        | Except.ok es =>
          Except.ok (pySet mm varsFilesKey
            (.listV (es.filter (fun f => ! yStrEq f fk))))) = .ok mm2 := h
    cases he : yvalElems vv with
    | error e =>
      rw [he] at h2
      exact Except.noConfusion h2
    | ok es =>
      rw [he] at h2
      simp only [Except.ok.injEq] at h2
      rw [← h2]
      exact pySet_keys_present mm varsFilesKey _ (by simp [hv])

theorem foldlM_pruneStep_keys :
    ∀ (ks : List (List Char)) (m m4 : List (List Char × YVal)),
      List.foldlM pruneStep m ks = .ok m4 →
      m4.map (fun kv => kv.1) = m.map (fun kv => kv.1) := by
  intro ks
  induction ks with
  | nil =>
    intro m m4 h
    simp only [List.foldlM] at h
    simp only [pure, Except.pure, Except.ok.injEq] at h
    rw [← h]
  | cons fk ks ih =>
    intro m m4 h
    simp only [List.foldlM] at h
    cases hs : pruneStep m fk with
    | error e =>
      rw [hs] at h
      simp only [bind, Except.bind] at h
      exact Except.noConfusion h
    | ok m1 =>
      rw [hs] at h
      simp only [bind, Except.bind] at h
      have := ih m1 m4 h
      rw [this, pruneStep_keys m m1 fk hs]

theorem lastOf_keys_pyRemove (m : List (List Char × YVal)) (k vfk : List Char)
    (h : lastOf (m.map (fun kv => kv.1)) = some k) (hne : ¬ k = vfk) :
    lastOf ((pyRemove m vfk).map (fun kv => kv.1)) = some k := by
  induction m using List.reverseRecOn with
  | nil => exact Option.noConfusion h
  | append_singleton xs p _ =>
    have hp : p.1 = k := by
      rw [List.map_append] at h
      simpa [lastOf_concat] using h
    have hfilter : pyRemove (xs ++ [p]) vfk = pyRemove xs vfk ++ [p] := by
      simp only [pyRemove, List.filter_append]
      congr 1
      simp [List.filter_cons, hp, hne]
    rw [hfilter, List.map_append]
    simp [lastOf_concat, hp]

theorem pruneVarsFiles_lastKey (iks : List (List Char))
    (m3 : List (List Char × YVal)) (d' : YVal) (k : List Char)
    (hlast : lastOf (m3.map (fun kv => kv.1)) = some k)
    (hk : ¬ k = varsFilesKey)
    (hok : pruneVarsFiles iks m3 = .ok d') :
    ∃ m', d' = .mapV m' ∧ lastOf (m'.map (fun kv => kv.1)) = some k := by
  unfold pruneVarsFiles at hok
  cases h1 : pyLookup m3 varsFilesKey with
  | none =>
    rw [h1] at hok
    simp only [Except.ok.injEq] at hok
    exact ⟨m3, hok.symm, hlast⟩
  | some vv =>
    rw [h1] at hok
    cases h2 : List.foldlM pruneStep m3 iks with
    | error e =>
      rw [h2] at hok
      exact Except.noConfusion hok
    | ok m4 =>
      rw [h2] at hok
      have hkeys := foldlM_pruneStep_keys iks m3 m4 h2
      have hlast4 : lastOf (m4.map (fun kv => kv.1)) = some k := by
        rw [hkeys]
        exact hlast
      have hok2 : (match pyLookup m4 varsFilesKey with
          | none => (Except.ok (.mapV m4) : Except Unit YVal)
          | some vv2 =>
            match pyLen vv2 with
            | .error e => .error e
            | .ok n =>
              if n = 0 then .ok (.mapV (pyRemove m4 varsFilesKey))
              else .ok (.mapV m4)) = .ok d' := hok
      cases h3 : pyLookup m4 varsFilesKey with
      | none =>
        rw [h3] at hok2
        simp only [Except.ok.injEq] at hok2
        exact ⟨m4, hok2.symm, hlast4⟩
      | some vv2 =>
        rw [h3] at hok2
        have hok3 : (match pyLen vv2 with
            | Except.error e => (Except.error e : Except Unit YVal)
            | Except.ok n =>
              if n = 0 then .ok (.mapV (pyRemove m4 varsFilesKey))
              else .ok (.mapV m4)) = .ok d' := hok2
        cases h4 : pyLen vv2 with
        | error e =>
          rw [h4] at hok3
          exact Except.noConfusion hok3
        | ok n =>
          rw [h4] at hok3
          have hok4 : (if n = 0 then (Except.ok (.mapV (pyRemove m4 varsFilesKey)) : Except Unit YVal)
              else .ok (.mapV m4)) = .ok d' := hok3
          by_cases hn : n = 0
          · rw [if_pos hn] at hok4
            simp only [Except.ok.injEq] at hok4
            exact ⟨pyRemove m4 varsFilesKey, hok4.symm,
              lastOf_keys_pyRemove m4 k varsFilesKey hlast4 hk⟩
          · rw [if_neg hn] at hok4
            simp only [Except.ok.injEq] at hok4
            exact ⟨m4, hok4.symm, hlast4⟩

theorem processPlay_lastKey (merged : List (List Char × YVal))
    (iks : List (List Char)) (m : List (List Char × YVal)) (d' : YVal)
    (k : List Char)
    (hlast : lastOf (m.map (fun kv => kv.1)) = some k)
    (hk : ¬ k = varsFilesKey)
    (hok : processPlay merged iks (.mapV m) = .ok d') :
    ∃ m', d' = .mapV m' ∧ lastOf (m'.map (fun kv => kv.1)) = some k := by
  unfold processPlay at hok
  have hok0 : (match lastOf (m.map (fun kv => kv.1)) with
      | none => (Except.error () : Except Unit YVal)
      | some last_key =>
        match pyLookup m last_key with
        | none => .error ()
        | some last_val =>
          match varsMerged (pyRemove m last_key) merged with
          | .error e => .error e
          | .ok m2 => pruneVarsFiles iks (pySet m2 last_key last_val)) = .ok d' := hok
  rw [hlast] at hok0
  have hmem : k ∈ m.map (fun kv => kv.1) := mem_of_lastOf _ _ hlast
  have hsome : (pyLookup m k).isSome = true := (pyLookup_isSome_iff k m).mpr hmem
  obtain ⟨lv, hlv⟩ := Option.isSome_iff_exists.mp hsome
  have hok1 : (match pyLookup m k with
      | none => (Except.error () : Except Unit YVal)
      | some last_val =>
        match varsMerged (pyRemove m k) merged with
        | .error e => .error e
        | .ok m2 => pruneVarsFiles iks (pySet m2 k last_val)) = .ok d' := hok0
  rw [hlv] at hok1
  have hok2 : (match varsMerged (pyRemove m k) merged with
      | Except.error e => (Except.error e : Except Unit YVal)
      | Except.ok m2 => pruneVarsFiles iks (pySet m2 k lv)) = .ok d' := hok1
  cases hvm : varsMerged (pyRemove m k) merged with
  | error e =>
    rw [hvm] at hok2
    exact Except.noConfusion hok2
  | ok m2 =>
    rw [hvm] at hok2
    have hknotm1 : ¬ k ∈ (pyRemove m k).map (fun kv => kv.1) :=
      not_mem_keys_pyRemove k m
    have hlast3 : lastOf ((pySet m2 k lv).map (fun kv => kv.1)) = some k := by
      rcases varsMerged_keys _ _ _ hvm with ⟨hkeys, hvnone⟩ | hkeys
      · by_cases hkv : k = varsKey
        · have hpresent : (pyLookup m2 k).isSome = true := by
            refine (pyLookup_isSome_iff k m2).mpr ?_
            rw [hkeys, hkv]
            simp
          rw [pySet_keys_present m2 k lv hpresent, hkeys, hkv]
          exact lastOf_concat _ _
        · have habsent : (pyLookup m2 k).isSome = false := by
            refine pyLookup_not_mem k m2 ?_
            rw [hkeys]
            simp only [List.mem_append, List.mem_singleton]
            intro hx
            rcases hx with hx | hx
            · exact hknotm1 hx
            · exact hkv hx
          rw [pySet_absent m2 k lv habsent, List.map_append]
          exact lastOf_concat _ _
      · have habsent : (pyLookup m2 k).isSome = false := by
          refine pyLookup_not_mem k m2 ?_
          rw [hkeys]
          exact hknotm1
        rw [pySet_absent m2 k lv habsent, List.map_append]
        exact lastOf_concat _ _
    exact pruneVarsFiles_lastKey iks (pySet m2 k lv) d' k hlast3 hk hok2

theorem exMapM_get {α β : Type} (f : α → Except Unit β) :
    ∀ (l : List α) (l' : List β), exMapM f l = .ok l' →
      ∀ i a, l.get? i = some a → ∃ b, l'.get? i = some b ∧ f a = .ok b := by
  intro l
  induction l with
  | nil =>
    intro l' h i a ha
    simp at ha
  | cons x xs ih =>
    intro l' h i a ha
    cases hfx : f x with
    | error e =>
      simp only [exMapM, hfx] at h
      exact Except.noConfusion h
    | ok y =>
      cases hxs : exMapM f xs with
      | error e =>
        simp only [exMapM, hfx, hxs] at h
        exact Except.noConfusion h
      | ok ys =>
        simp only [exMapM, hfx, hxs, Except.ok.injEq] at h
        subst h
        cases i with
        | zero =>
          simp only [List.get?] at ha
          simp only [Option.some.injEq] at ha
          subst ha
          exact ⟨y, rfl, hfx⟩
        | succ j =>
          simp only [List.get?] at ha
          exact ih ys hxs j a ha

/-- C8 counterexample: a play whose structurally last key is
`vars_files`, all of whose entries are consumed by the context, loses
that key: afterwards `vars` is last. The play has a key (`hosts`)
besides `vars`, so the claim's hypothesis holds. -/
theorem c8_counterexample :
    expand_vars_playbook (fun _ => [("a".data, .strV ("1".data))])
        ⟨[("f".data, "a: 1".data)], []⟩
        (.listV [.mapV [("hosts".data, .strV ("h".data)),
          (varsFilesKey, .listV [.strV ("f".data)])]])
      = .ok (.listV [.mapV [("hosts".data, .strV ("h".data)),
          (varsKey, .mapV [("a".data, .strV ("1".data))])]]) ∧
    lastOf (([("hosts".data, YVal.strV ("h".data)),
        (varsFilesKey, YVal.listV [.strV ("f".data)])]).map
          (fun kv => kv.1)) = some varsFilesKey ∧
    lastOf (([("hosts".data, YVal.strV ("h".data)),
        (varsKey, YVal.mapV [("a".data, .strV ("1".data))])]).map
          (fun kv => kv.1)) = some varsKey ∧
    ¬ (some varsFilesKey = some varsKey) :=
  ⟨rfl, rfl, rfl, by decide⟩

/-- C8 (amended): for every playbook whose plays are mappings, every
vars-file loader and additional context, a play's structurally last key
is still the structurally last key after `expand_vars_playbook` —
PROVIDED that key is not `vars_files`: a play ending in `vars_files`
can lose it to the pruning (then `vars` becomes last), as the
counterexample shows. -/
theorem c8_expand_vars_amended (load : List Char → List (List Char × YVal))
    (actx : PlaybookContext) (plays plays' : List YVal)
    (hok : expand_vars_playbook load actx (.listV plays) = .ok (.listV plays')) :
    ∀ i m k, plays.get? i = some (.mapV m) →
      lastOf (m.map (fun kv => kv.1)) = some k → ¬ k = varsFilesKey →
      ∃ m', plays'.get? i = some (.mapV m') ∧
        lastOf (m'.map (fun kv => kv.1)) = some k := by
  intro i m k hi hlast hk
  unfold expand_vars_playbook at hok
  by_cases hm : 0 < (load_and_merge_vars_in_context load
      ((actx.varInfiles.map (fun kv => kv.2)) ++ (actx.includeVars.map (fun kv => kv.2)))).length
  · rw [if_pos hm] at hok
    have hok0 : (match exMapM (processPlay
        (load_and_merge_vars_in_context load
          ((actx.varInfiles.map (fun kv => kv.2)) ++ (actx.includeVars.map (fun kv => kv.2))))
        (actx.varInfiles.map (fun kv => kv.1))) plays with
      | Except.error e => (Except.error e : Except Unit YVal)
      | Except.ok plays2 => Except.ok (.listV plays2)) = .ok (.listV plays') := hok
    cases hex : exMapM (processPlay
        (load_and_merge_vars_in_context load
          ((actx.varInfiles.map (fun kv => kv.2)) ++ (actx.includeVars.map (fun kv => kv.2))))
        (actx.varInfiles.map (fun kv => kv.1))) plays with
    | error e =>
      rw [hex] at hok0
      exact Except.noConfusion hok0
    | ok plays2 =>
      rw [hex] at hok0
      simp only [Except.ok.injEq, YVal.listV.injEq] at hok0
      subst hok0
      obtain ⟨b, hb, hpb⟩ := exMapM_get _ plays plays2 hex i (.mapV m) hi
      obtain ⟨m', hm', hlast'⟩ := processPlay_lastKey _ _ m b k hlast hk hpb
      exact ⟨m', by rw [hb, hm'], hlast'⟩
  · rw [if_neg hm] at hok
    simp only [Except.ok.injEq, YVal.listV.injEq] at hok
    subst hok
    exact ⟨m, hi, hlast⟩

theorem c8_witness :
    expand_vars_playbook (fun _ => [("a".data, .strV ("1".data))])
        ⟨[("f".data, "a: 1".data)], []⟩
        (.listV [.mapV [("tasks".data, YVal.nullV)]])
      = .ok (.listV [.mapV [(varsKey, .mapV [("a".data, .strV ("1".data))]),
          ("tasks".data, YVal.nullV)]]) ∧
    ∃ m', (([.mapV [(varsKey, YVal.mapV [("a".data, YVal.strV ("1".data))]),
          ("tasks".data, YVal.nullV)]] : List YVal)).get? 0 = some (.mapV m') ∧
      lastOf (m'.map (fun kv => kv.1)) = some ("tasks".data) := by
  refine ⟨rfl, ?_⟩
  exact c8_expand_vars_amended (fun _ => [("a".data, .strV ("1".data))])
    ⟨[("f".data, "a: 1".data)], []⟩
    [.mapV [("tasks".data, YVal.nullV)]]
    [.mapV [(varsKey, .mapV [("a".data, .strV ("1".data))]), ("tasks".data, YVal.nullV)]]
    rfl 0 [("tasks".data, YVal.nullV)] ("tasks".data) rfl rfl (by decide)

/-! ### C9: `get_task_count_from_prompt` -/

theorem splitOnChar_ne_nil (sep : Char) : ∀ s, splitOnChar sep s ≠ [] := by
  intro s
  cases s with
  | nil => simp [splitOnChar]
  | cons c cs =>
    by_cases hc : c = sep
    · simp [splitOnChar, hc]
    · cases h : splitOnChar sep cs with
      | nil => simp [splitOnChar, hc, h]
      | cons t ts => simp [splitOnChar, hc, h]

theorem splitOnChar_length (sep : Char) :
    ∀ s : List Char, (splitOnChar sep s).length = s.count sep + 1 := by
  intro s
  induction s with
  | nil => rfl
  | cons c cs ih =>
    by_cases hc : c = sep
    · subst hc
      simp [splitOnChar, List.count_cons, ih]
    · have hne := splitOnChar_ne_nil sep cs
      cases h : splitOnChar sep cs with
      | nil => exact absurd h hne
      | cons t ts =>
        rw [h] at ih
        simp only [splitOnChar, if_neg hc, h]
        simp only [List.count_cons]
        simp [hc]
        simpa using ih

/-- C9 counterexample: for the empty prompt the code returns a count of
0, so the claimed lower bound of 1 fails. -/
theorem c9_counterexample :
    get_task_count_from_prompt [] = 0 ∧ ¬ 1 ≤ get_task_count_from_prompt [] := by
  decide

/-- C9 (amended): for every NON-empty prompt, `get_task_count_from_prompt`
returns the number of &-separated segments of the trimmed prompt (one
more than the number of & characters), and this count is at least 1; for
the empty prompt it returns 0. -/
theorem c9_get_task_count_amended (prompt : List Char) :
    (prompt = [] → get_task_count_from_prompt prompt = 0) ∧
      (¬ prompt = [] →
        get_task_count_from_prompt prompt = (pyStrip prompt).count '&' + 1 ∧
          1 ≤ get_task_count_from_prompt prompt) := by
  constructor
  · intro h
    simp [get_task_count_from_prompt, h]
  · intro h
    have hs : get_task_count_from_prompt prompt
        = (splitOnChar '&' (pyStrip prompt)).length := by
      simp [get_task_count_from_prompt, h]
    rw [hs, splitOnChar_length]
    omega

theorem c9_witness :
    ¬ ("a & b".data : List Char) = [] ∧
      (get_task_count_from_prompt ("a & b".data)
          = (pyStrip ("a & b".data)).count '&' + 1 ∧
        1 ≤ get_task_count_from_prompt ("a & b".data)) :=
  ⟨by decide, (c9_get_task_count_amended ("a & b".data)).2 (by decide)⟩

end AAC
